import Mathlib

/-!
Verification development for the `nodejs-tester` scripts of this repository.

The first script reads a recorded event stream as text, splits it into
records on blank-line (`"\n\n"`) delimiters inside the `start` callback of a
`ReadableStream`, trims each record, skips empty records, drops the first 6
characters (`line.slice(6)`), closes the stream on the literal payload
`[DONE]`, and otherwise enqueues `JSON.parse(message)`.  The resulting chunk
stream is reduced to a final snapshot (`readUIMessageStream` from the external
`ai` package; its reduction contract is modelled from the spec), whose last
value is serialized to disk.  The second script structurally diffs two JSON
documents with `json-diff-kit`'s `Differ` (external; modelled from the spec)
configured with `showModifications: true`, `maxDepth: Infinity` and the
positional (`'normal'`) array strategy, and prints every non-`equal` record as
`<lineNumber>:<type> <text>`.

JavaScript strings are modelled as `List Char`; JSON documents as the
inductive `Json` (numbers restricted to integers: floating point is out of
scope).  Recursive functions over the nested `Json` type take an explicit
fuel argument instantiated with a provably sufficient bound, so every
definition is executable by kernel reduction.
-/

/-- JSON-compatible trees: the payload values of the stream and the inputs of
the differ.  Numbers are modelled as integers. -/
inductive Json where
  | null
  | bool (b : Bool)
  | num (n : Int)
  | str (s : List Char)
  | arr (elems : List Json)
  | obj (fields : List (List Char × Json))

mutual

/-- Computable size of a `Json` value, used as a fuel bound for the fueled
recursions below. -/
def jsize : Json → Nat
  | .null => 1
  | .bool _ => 1
  | .num _ => 1
  | .str _ => 1
  | .arr xs => 1 + jsizeList xs
  | .obj fs => 1 + jsizeFields fs

/-- Size of a list of `Json` values. -/
def jsizeList : List Json → Nat
  | [] => 0
  | x :: xs => 1 + jsize x + jsizeList xs

/-- Size of a list of object fields. -/
def jsizeFields : List (List Char × Json) → Nat
  | [] => 0
  | (_, x) :: xs => 1 + jsize x + jsizeFields xs

end

theorem jsize_pos (a : Json) : 0 < jsize a := by
  cases a <;> simp [jsize]

mutual

/-- Fueled structural equality on `Json` values.  Any fuel of at least
`jsize a + jsize b` computes true structural equality. -/
def jbeqF : Nat → Json → Json → Bool
  | 0, _, _ => false
  | f+1, l, r =>
    match l, r with
    | .null, .null => true
    | .bool a, .bool b => a == b
    | .num a, .num b => a == b
    | .str a, .str b => a == b
    | .arr xs, .arr ys => jbeqListF f xs ys
    | .obj xs, .obj ys => jbeqFieldsF f xs ys
    | _, _ => false

/-- Fueled structural equality on lists of `Json` values. -/
def jbeqListF : Nat → List Json → List Json → Bool
  | 0, _, _ => false
  | _+1, [], [] => true
  | f+1, x :: xs, y :: ys => jbeqF f x y && jbeqListF f xs ys
  | _+1, _ :: _, [] => false
  | _+1, [], _ :: _ => false

/-- Fueled structural equality on object field lists. -/
def jbeqFieldsF : Nat → List (List Char × Json) → List (List Char × Json) → Bool
  | 0, _, _ => false
  | _+1, [], [] => true
  | f+1, (k, x) :: xs, (k', y) :: ys => k == k' && jbeqF f x y && jbeqFieldsF f xs ys
  | _+1, _ :: _, [] => false
  | _+1, [], _ :: _ => false

end

/-- Structural equality on `Json`, with sufficient fuel supplied. -/
def jbeq (a b : Json) : Bool := jbeqF (jsize a + jsize b) a b

theorem jbeqF_iff : ∀ f,
    (∀ a b : Json, jsize a + jsize b ≤ f → (jbeqF f a b = true ↔ a = b)) ∧
    (∀ xs ys : List Json, jsizeList xs + jsizeList ys < f →
      (jbeqListF f xs ys = true ↔ xs = ys)) ∧
    (∀ xs ys : List (List Char × Json), jsizeFields xs + jsizeFields ys < f →
      (jbeqFieldsF f xs ys = true ↔ xs = ys)) := by
  intro f
  induction f with
  | zero =>
    refine ⟨fun a b h => ?_, fun xs ys h => absurd h (by omega),
      fun xs ys h => absurd h (by omega)⟩
    have := jsize_pos a
    omega
  | succ f ih =>
    obtain ⟨ihv, ihl, ihf⟩ := ih
    refine ⟨?_, ?_, ?_⟩
    · intro a b h
      cases a <;> cases b <;>
        simp only [jbeqF, jsize, Json.arr.injEq, Json.obj.injEq, Json.bool.injEq,
          Json.num.injEq, Json.str.injEq, beq_iff_eq, reduceCtorEq,
          Bool.false_eq_true, iff_self, false_iff, not_false_eq_true] <;>
        try trivial
      case arr.arr xs ys => exact ihl xs ys (by simp [jsize] at h; omega)
      case obj.obj xs ys => exact ihf xs ys (by simp [jsize] at h; omega)
    · intro xs ys h
      match xs, ys with
      | [], [] => simp [jbeqListF]
      | [], _ :: _ => simp [jbeqListF]
      | _ :: _, [] => simp [jbeqListF]
      | x :: xs, y :: ys =>
        have h1 : jsize x + jsize y ≤ f := by simp [jsizeList] at h; omega
        have h2 : jsizeList xs + jsizeList ys < f := by simp [jsizeList] at h; omega
        simp [jbeqListF, ihv x y h1, ihl xs ys h2]
    · intro xs ys h
      match xs, ys with
      | [], [] => simp [jbeqFieldsF]
      | [], _ :: _ => simp [jbeqFieldsF]
      | _ :: _, [] => simp [jbeqFieldsF]
      | (k, x) :: xs, (k', y) :: ys =>
        have h1 : jsize x + jsize y ≤ f := by simp [jsizeFields] at h; omega
        have h2 : jsizeFields xs + jsizeFields ys < f := by simp [jsizeFields] at h; omega
        simp [jbeqFieldsF, ihv x y h1, ihf xs ys h2, and_assoc]

theorem jbeq_iff (a b : Json) : jbeq a b = true ↔ a = b :=
  (jbeqF_iff (jsize a + jsize b)).1 a b (Nat.le_refl _)

instance : DecidableEq Json := fun a b => decidable_of_iff (jbeq a b = true) (jbeq_iff a b)

/-- Whitespace characters removed by JavaScript's `String.prototype.trim`
(modelled for the ASCII range). -/
def jsWhite (c : Char) : Bool :=
  [' ', '\t', '\n', '\r', '\x0b', '\x0c'].contains c

/-- Model of `line.trim()`: strip `jsWhite` characters from both ends. -/
def jsTrim (cs : List Char) : List Char :=
  ((cs.dropWhile jsWhite).reverse.dropWhile jsWhite).reverse

/-- Model of `line.slice(n)` for a nonnegative index `n`. -/
def jsSlice (cs : List Char) (n : Nat) : List Char := cs.drop n

/-- Model of `content.split('\n\n')`: leftmost, non-overlapping splitting on
the blank-line delimiter.  `acc` holds the current record, reversed. -/
def splitRecords : List Char → List Char → List (List Char)
  | acc, '\n' :: '\n' :: rest => acc.reverse :: splitRecords [] rest
  | acc, c :: rest => splitRecords (c :: acc) rest
  | acc, [] => [acc.reverse]

/-- The reserved sentinel payload `[DONE]`. -/
def doneToken : List Char := "[DONE]".data

/-- State of the `ReadableStreamDefaultController` during the `start`
callback: the chunks enqueued so far and whether `controller.close()` has
been called. -/
structure CState where
  queue : List Json
  closed : Bool
deriving DecidableEq

/-- Errors that abort the `start` callback.  `parseError` models the
exception thrown by `JSON.parse` on a malformed payload (the offending
record's offset is modelled from the spec, which requires a `ParseError`
identifying it); `closeAfterClose` and `enqueueAfterClose` model the
`TypeError` thrown by `controller.close()` / `controller.enqueue()` once the
stream has been closed by an earlier `[DONE]` record. -/
inductive StartErr where
  | parseError (idx : Nat)
  | closeAfterClose (idx : Nat)
  | enqueueAfterClose (idx : Nat)
deriving DecidableEq

/-- One iteration of the `forEach` body in the `start` callback, for the
record with offset `idx`: trim, skip if blank, drop the 6-character header,
close on `[DONE]`, otherwise parse the payload with `decode` (the model of
`JSON.parse`) and enqueue it. -/
def recordStep (decode : List Char → Option Json) (st : CState) (idx : Nat)
    (raw : List Char) : Except StartErr CState :=
  let line := jsTrim raw
  if line = [] then .ok st
  else
    let message := jsSlice line 6
    if message = doneToken then
      if st.closed then .error (.closeAfterClose idx)
      else .ok ⟨st.queue, true⟩
    else
      match decode message with
      | none => .error (.parseError idx)
      | some v =>
        if st.closed then .error (.enqueueAfterClose idx)
        else .ok ⟨st.queue ++ [v], st.closed⟩

/-- The `forEach` loop over the records, threading the controller state; a
thrown exception aborts the loop (and, since `start` runs synchronously
during stream construction, the whole program). -/
def runRecords (decode : List Char → Option Json) :
    Nat → CState → List (List Char) → Except StartErr CState
  | _, st, [] => .ok st
  | i, st, raw :: rest =>
    match recordStep decode st i raw with
    | .error e => .error e
    | .ok st' => runRecords decode (i + 1) st' rest

/-- The whole `start` callback on raw input text: split on blank lines and
process every record in order. -/
def runStart (decode : List Char → Option Json) (content : List Char) :
    Except StartErr CState :=
  runRecords decode 0 ⟨[], false⟩ (splitRecords [] content)

/-- JSON whitespace accepted between tokens. -/
def jsonWhite (c : Char) : Bool :=
  [' ', '\t', '\n', '\r'].contains c

/-- Decimal digit test. -/
def isDigitCh (c : Char) : Bool := '0' ≤ c && c ≤ '9'

/-- Value of a decimal digit list. -/
def digitsToNat (ds : List Char) : Nat :=
  ds.foldl (fun a c => a * 10 + (c.toNat - 48)) 0

/-- The escape characters JSON string bodies may carry, with their
translations. -/
def escPairs : List (Char × Char) :=
  [('"', '"'), ('\\', '\\'), ('/', '/'), ('n', '\n'), ('t', '\t'), ('r', '\r')]

/-- Translation of a JSON string escape character, by lookup in `escPairs`. -/
def escCh (c : Char) : Option Char :=
  (escPairs.find? (fun p => p.1 == c)).map Prod.snd

/-- Parse the body of a JSON string after the opening quote; returns the
content and the rest of the input after the closing quote. -/
def parseStrBody : List Char → Option (List Char × List Char)
  | [] => none
  | '"' :: rest => some ([], rest)
  | '\\' :: c :: rest =>
    match escCh c with
    | some d => (parseStrBody rest).map (fun p => (d :: p.1, p.2))
    | none => none
  | '\\' :: [] => none
  | c :: rest => (parseStrBody rest).map (fun p => (c :: p.1, p.2))

mutual

/-- Modelled from the spec: the `JSON.parse` builtin used on each record's
payload (the spec requires each non-terminal payload to be a JSON document).
A recursive-descent parser for one JSON value; numbers are restricted to
(optionally signed) integers.  The fuel bounds the nesting depth; the input
length is always sufficient. -/
def parseVal : Nat → List Char → Option (Json × List Char)
  | 0, _ => none
  | f+1, cs =>
    match cs.dropWhile jsonWhite with
    | [] => none
    | '{' :: rest =>
      (match rest.dropWhile jsonWhite with
       | '}' :: rest2 => some (.obj [], rest2)
       | _ => (parseFields f rest).map (fun p => (.obj p.1, p.2)))
    | '[' :: rest =>
      (match rest.dropWhile jsonWhite with
       | ']' :: rest2 => some (.arr [], rest2)
       | _ => (parseElems f rest).map (fun p => (.arr p.1, p.2)))
    | '"' :: rest => (parseStrBody rest).map (fun p => (.str p.1, p.2))
    | 't' :: 'r' :: 'u' :: 'e' :: rest => some (.bool true, rest)
    | 'f' :: 'a' :: 'l' :: 's' :: 'e' :: rest => some (.bool false, rest)
    | 'n' :: 'u' :: 'l' :: 'l' :: rest => some (.null, rest)
    | '-' :: rest =>
      (match rest.span isDigitCh with
       | ([], _) => none
       | (ds, rest2) => some (.num (-(digitsToNat ds : Int)), rest2))
    | cs' =>
      (match cs'.span isDigitCh with
       | ([], _) => none
       | (ds, rest2) => some (.num (digitsToNat ds : Int), rest2))

/-- Parse one or more comma-separated `"key": value` members followed by a
closing brace. -/
def parseFields : Nat → List Char → Option (List (List Char × Json) × List Char)
  | 0, _ => none
  | f+1, cs =>
    match cs.dropWhile jsonWhite with
    | '"' :: rest =>
      match parseStrBody rest with
      | none => none
      | some (k, rest2) =>
        match rest2.dropWhile jsonWhite with
        | ':' :: rest3 =>
          match parseVal f rest3 with
          | none => none
          | some (v, rest4) =>
            match rest4.dropWhile jsonWhite with
            | ',' :: rest5 => (parseFields f rest5).map (fun p => ((k, v) :: p.1, p.2))
            | '}' :: rest5 => some ([(k, v)], rest5)
            | _ => none
        | _ => none
    | _ => none

/-- Parse one or more comma-separated array elements followed by a closing
bracket. -/
def parseElems : Nat → List Char → Option (List Json × List Char)
  | 0, _ => none
  | f+1, cs =>
    match parseVal f cs with
    | none => none
    | some (v, rest) =>
      match rest.dropWhile jsonWhite with
      | ',' :: rest2 => (parseElems f rest2).map (fun p => (v :: p.1, p.2))
      | ']' :: rest2 => some ([v], rest2)
      | _ => none

end

/-- Modelled from the spec: `JSON.parse` on a whole payload — parse one value
and require only whitespace to remain. -/
def miniJsonParse (cs : List Char) : Option Json :=
  match parseVal (cs.length + 1) cs with
  | some (v, rest) => if rest.dropWhile jsonWhite = [] then some v else none
  | none => none

deriving instance DecidableEq for Except

/-- Whether a record is blank (empty or whitespace-only) after trimming. -/
def blankRecord (raw : List Char) : Bool := jsTrim raw == []

/-- The payload of a record: `none` for blank records, otherwise the trimmed
record with its 6-character header removed. -/
def recordPayload (raw : List Char) : Option (List Char) :=
  let t := jsTrim raw
  if t = [] then none else some (jsSlice t 6)

/-- Reference description, following the spec's words: scan the records in
order, skipping blank ones; stop at the first `[DONE]` payload (recording
that the terminal sentinel was seen); otherwise collect the decoded payloads
in order.  A payload that fails to decode also stops the scan (fail-fast). -/
def specScan (decode : List Char → Option Json) : List (List Char) → List Json × Bool
  | [] => ([], false)
  | raw :: rest =>
    match recordPayload raw with
    | none => specScan decode rest
    | some p =>
      if p = doneToken then ([], true)
      else
        match decode p with
        | some v =>
          let es := specScan decode rest
          (v :: es.1, es.2)
        | none => ([], false)

/-- Well-formedness of a record list: every non-blank record before the first
`[DONE]` has a decodable payload, and only blank records follow the first
`[DONE]`. -/
def wellFormed (decode : List Char → Option Json) : List (List Char) → Bool
  | [] => true
  | raw :: rest =>
    match recordPayload raw with
    | none => wellFormed decode rest
    | some p =>
      if p = doneToken then rest.all blankRecord
      else (decode p).isSome && wellFormed decode rest

/-- Modelled from the spec: the reduction performed by `readUIMessageStream`
(external `ai` package).  The caller-supplied merge strategy folds each
Event into the running State; the reader loop (`let last; while ... last =
result.value`) keeps the latest snapshot, so an empty event sequence leaves
`last` undefined (`none`). -/
def lastSnapshot {σ : Type} (merge : Option σ → Json → σ) :
    List Json → Option σ → Option σ
  | [], acc => acc
  | e :: rest, acc => lastSnapshot merge rest (some (merge acc e))

/-- Failure modes of the whole first script.  `startFailure` is an exception
thrown while constructing the stream; `neverTerminates` models the reader
loop suspending forever because the stream is never closed (the terminal
sentinel is missing); `writeTypeError` models
`fs.writeFileSync(path, undefined)` throwing because
`JSON.stringify(undefined)` is `undefined`, not a string. -/
inductive ProgramError where
  | startFailure (e : StartErr)
  | neverTerminates
  | writeTypeError
deriving DecidableEq

/-- The first script up to (and excluding) persistence: build the stream from
the raw text, reduce it with the caller-supplied merge strategy, return the
last snapshot (`none` when the stream was empty). -/
def reduceContent (decode : List Char → Option Json)
    (merge : Option Json → Json → Json) (content : List Char) :
    Except ProgramError (Option Json) :=
  match runStart decode content with
  | .error e => .error (.startFailure e)
  | .ok ⟨_, false⟩ => .error .neverTerminates
  | .ok ⟨q, true⟩ => .ok (lastSnapshot merge q none)

/-- The merge strategy of the end-to-end scenario: concatenate each event's
`delta` string into the `text` field of the accumulated state. -/
def deltaMerge (acc : Option Json) (e : Json) : Json :=
  let prev : List Char :=
    match acc with
    | some (.obj [(_, .str t)]) => t
    | _ => []
  let d : List Char :=
    match e with
    | .obj fs =>
      match (fs.find? (fun kv => kv.1 == "delta".data)).map Prod.snd with
      | some (.str d) => d
      | _ => []
    | _ => []
  .obj [("text".data, .str (prev ++ d))]

/-- Decimal rendering of an integer. -/
def intChars (n : Int) : List Char :=
  if n < 0 then '-' :: Nat.toDigits 10 n.natAbs else Nat.toDigits 10 n.natAbs

/-- Interleave a comma between rendered items. -/
def sepByComma : List (List Char) → List Char
  | [] => []
  | [x] => x
  | x :: xs => x ++ ',' :: sepByComma xs

/-- Fueled compact JSON rendering, used for the human-readable `text` of diff
records and as the model of `JSON.stringify` (indentation is not modelled;
no claim depends on the exact serialized bytes). -/
def renderF : Nat → Json → List Char
  | 0, _ => []
  | f+1, v =>
    match v with
    | .null => "null".data
    | .bool true => "true".data
    | .bool false => "false".data
    | .num n => intChars n
    | .str s => '"' :: s ++ ['"']
    | .arr xs => '[' :: sepByComma (xs.map (renderF f)) ++ [']']
    | .obj fs =>
      '{' :: sepByComma (fs.map (fun kv => '"' :: kv.1 ++ '"' :: ':' :: renderF f kv.2)) ++ ['}']

/-- Compact JSON rendering with sufficient fuel. -/
def render (v : Json) : List Char := renderF (jsize v) v

/-- The whole first script: reduce the stream, then persist the last
snapshot.  When the stream closed without any event, `last` is `undefined`,
`JSON.stringify(undefined)` is `undefined`, and `fs.writeFileSync` throws a
`TypeError`. -/
def runProgram (decode : List Char → Option Json)
    (merge : Option Json → Json → Json) (content : List Char) :
    Except ProgramError (List Char) :=
  match reduceContent decode merge content with
  | .error e => .error e
  | .ok none => .error .writeTypeError
  | .ok (some v) => .ok (render v)

/-- A Frame of the stream: a parsed Event payload, or the terminal sentinel. -/
inductive Frame where
  | event (payload : Json)
  | terminal
deriving DecidableEq

/-- Modelled from the spec: `IncompleteStreamError`, raised when the frame
sequence ends without a terminal Frame. -/
inductive ReduceError where
  | incompleteStream
deriving DecidableEq

/-- Modelled from the spec: the SnapshotReducer contract of
`readUIMessageStream` (external `ai` package).  Each non-terminal Frame is
merged into the running State in order; processing stops at the terminal
Frame, returning the accumulated State (`none` when no Event was merged);
a sequence ending without a terminal Frame fails with
`IncompleteStreamError`. -/
def reduceFrames {σ : Type} (merge : Option σ → Json → σ) :
    List Frame → Option σ → Except ReduceError (Option σ)
  | [], _ => .error .incompleteStream
  | .terminal :: _, acc => .ok acc
  | .event e :: rest, acc => reduceFrames merge rest (some (merge acc e))

/-- Diff record types, as in the spec's DiffRecord data model. -/
inductive DiffType where
  | equal
  | add
  | remove
  | modify
deriving DecidableEq

/-- Modelled from the spec: one reported difference — a type, the running
line number of the rendered report, and a human-readable description. -/
structure DiffRecord where
  lineNumber : Nat
  type : DiffType
  text : List Char
deriving DecidableEq

/-- A diff record before line numbers are assigned. -/
abbrev DRec := DiffType × List Char

/-- An alignment slot produced by the ArrayAligner: a left element, a right
element, or a matched pair. -/
abbrev Slot := Option Json × Option Json

/-- The two array-diff strategies of the source's `Differ` options
(`arrayDiffMethod: 'normal' | 'lcs'`). -/
inductive AlignMethod where
  | normal
  | lcs
deriving DecidableEq

/-- Modelled from the spec: the positional (`'normal'`) ArrayAligner — index
`i` of the left sequence pairs with index `i` of the right one; remaining
indices on the longer side are unmatched. -/
def posAlign : List Json → List Json → List Slot
  | [], ys => ys.map (fun y => (none, some y))
  | x :: xs, [] => (some x, none) :: posAlign xs []
  | x :: xs, y :: ys => (some x, some y) :: posAlign xs ys

/-- Number of matched pairs in an alignment. -/
def matchCount (slots : List Slot) : Nat :=
  slots.countP (fun s => s.1.isSome && s.2.isSome)

/-- Modelled from the spec: the alignment (`'lcs'`) ArrayAligner — a
longest-common-subsequence alignment, matching deep-structurally equal
elements in the same relative order and leaving everything else unmatched.
Equal heads are matched; otherwise the branch with the larger match count
wins.  The fuel bounds the recursion depth; the sum of the lengths is always
sufficient. -/
def lcsAlignF : Nat → List Json → List Json → List Slot
  | 0, xs, ys => xs.map (fun x => (some x, none)) ++ ys.map (fun y => (none, some y))
  | _+1, [], ys => ys.map (fun y => (none, some y))
  | _+1, x :: xs, [] => (x :: xs).map (fun x' => (some x', none))
  | f+1, x :: xs, y :: ys =>
    if x = y then (some x, some y) :: lcsAlignF f xs ys
    else
      let a := lcsAlignF f (x :: xs) ys
      let b := lcsAlignF f xs (y :: ys)
      if matchCount b ≤ matchCount a then (none, some y) :: a else (some x, none) :: b

/-- LCS alignment with sufficient fuel. -/
def lcsAlign (xs ys : List Json) : List Slot := lcsAlignF (xs.length + ys.length) xs ys

/-- The ArrayAligner strategy dispatch. -/
def align : AlignMethod → List Json → List Json → List Slot
  | .normal, xs, ys => posAlign xs ys
  | .lcs, xs, ys => lcsAlign xs ys

/-- Records emitted for one alignment slot (also used for one object key):
recurse on matched pairs, report unmatched left subtrees as `remove` and
unmatched right subtrees as `add`. -/
def slotRecords (recur : Json → Json → List DRec) : Slot → List DRec
  | (some a, some b) => recur a b
  | (some a, none) => [(.remove, render a)]
  | (none, some b) => [(.add, render b)]
  | (none, none) => []

/-- The distinct keys of an object's field list, in first-occurrence order. -/
def keysOf (fs : List (List Char × Json)) : List (List Char) :=
  (fs.map Prod.fst).dedup

/-- First value bound to key `k`. -/
def lookupF (fs : List (List Char × Json)) (k : List Char) : Option Json :=
  (fs.find? (fun kv => decide (kv.1 = k))).map Prod.snd

/-- Key union in stable order: the left object's keys first, then right-only
keys. -/
def objKeys (xs ys : List (List Char × Json)) : List (List Char) :=
  keysOf xs ++ (keysOf ys).filter (fun k => decide (k ∉ keysOf xs))

/-- Human-readable description of a modified scalar. -/
def modText (l r : Json) : List Char := render l ++ " -> ".data ++ render r

/-- Modelled from the spec: the recursive structural comparison of the
TreeDiffer (`json-diff-kit`'s `Differ.diff`), with the source's options:
`showModifications: true` (differing scalars yield one `modify` record),
`maxDepth: Infinity` (no depth ceiling), and the array strategy given by
`m`.  Equal leaves yield `equal`; objects recurse over the stable key union
with missing-on-left keys reported as `add` and missing-on-right as
`remove`; arrays delegate to the ArrayAligner; mismatched kinds yield a
whole-subtree `remove` + `add` pair.  The fuel bounds the recursion depth;
`jsize` of the two inputs is always sufficient (the trees of this model are
finite, so cycle detection never fires). -/
def diffFuel (m : AlignMethod) : Nat → Json → Json → List DRec
  | 0, _, _ => []
  | f+1, l, r =>
    match l, r with
    | .null, .null => [(.equal, render .null)]
    | .bool a, .bool b =>
      if a = b then [(.equal, render (.bool a))] else [(.modify, modText (.bool a) (.bool b))]
    | .num a, .num b =>
      if a = b then [(.equal, render (.num a))] else [(.modify, modText (.num a) (.num b))]
    | .str a, .str b =>
      if a = b then [(.equal, render (.str a))] else [(.modify, modText (.str a) (.str b))]
    | .obj xs, .obj ys =>
      ((objKeys xs ys).map
        (fun k => slotRecords (diffFuel m f) (lookupF xs k, lookupF ys k))).flatten
    | .arr xs, .arr ys =>
      ((align m xs ys).map (slotRecords (diffFuel m f))).flatten
    | l', r' => [(.remove, render l'), (.add, render r')]

/-- The structural diff with sufficient fuel. -/
def diffCore (m : AlignMethod) (l r : Json) : List DRec :=
  diffFuel m (jsize l + jsize r) l r

/-- Assign consecutive line numbers (the running line counter) to records. -/
def assignLines : Nat → List DRec → List DiffRecord
  | _, [] => []
  | n, (t, s) :: rest => ⟨n, t, s⟩ :: assignLines (n + 1) rest

/-- Modelled from the spec: `Differ.diff` — one inner sequence per top-level
comparison unit, with the running line counter starting at 1. -/
def Differ.diff (m : AlignMethod) (l r : Json) : List (List DiffRecord) :=
  [assignLines 1 (diffCore m l r)]

/-- Number of records of a given type among unnumbered records. -/
def countT (t : DiffType) (rs : List DRec) : Nat :=
  rs.countP (fun p => decide (p.1 = t))

/-- Number of records of a given type in a whole diff result. -/
def countRecs (t : DiffType) (rss : List (List DiffRecord)) : Nat :=
  rss.flatten.countP (fun r => decide (r.type = t))

/-- Role swap of record types between `diff(left, right)` and
`diff(right, left)`: `add` and `remove` trade places, `equal` and `modify`
are fixed. -/
def swapT : DiffType → DiffType
  | .add => .remove
  | .remove => .add
  | .equal => .equal
  | .modify => .modify

/-- Scalar (leaf) test: everything but arrays and objects. -/
def isScalar : Json → Bool
  | .arr _ => false
  | .obj _ => false
  | _ => true

/-- Insertion of an element at position `i` of a sequence. -/
def insertAt : Nat → Json → List Json → List Json
  | 0, e, s => e :: s
  | _+1, e, [] => [e]
  | n+1, e, x :: xs => x :: insertAt n e xs

/-- The characters of a record type, as JavaScript would stringify it. -/
def typeChars : DiffType → List Char
  | .equal => "equal".data
  | .add => "add".data
  | .remove => "remove".data
  | .modify => "modify".data

/-- The report line `<lineNumber>:<type> <text>` printed by
`console.log(`...`, r.text)` for one record. -/
def formatLine (r : DiffRecord) : List Char :=
  Nat.toDigits 10 r.lineNumber ++ ':' :: typeChars r.type ++ ' ' :: r.text

/-- The report loop of the second script: for every record of every group,
print one formatted line unless the record's type is `equal`. -/
def reportLines (rss : List (List DiffRecord)) : List (List Char) :=
  rss.foldl
    (fun acc rs =>
      rs.foldl (fun acc2 r => if r.type = DiffType.equal then acc2 else acc2 ++ [formatLine r])
        acc)
    []

/-- One record of the end-to-end scenario: a header followed by the JSON
text of an object with a single `delta` string field (built from characters,
e.g. `A:` + the text of the object with delta `He`). -/
def deltaRecord (tag d : List Char) : List Char :=
  tag ++ '{' :: '"' :: "delta".data ++ '"' :: ':' :: '"' :: d ++ ['"', '}']

/-- The blank-line record delimiter. -/
def recSep : List Char := ['\n', '\n']

/-- Raw text of the end-to-end scenario exactly as the spec (and claim C2)
writes it: records with the 2-character header `A:`. -/
def sampleA : List Char :=
  deltaRecord "A:".data "He".data ++ recSep ++
    deltaRecord "A:".data "llo".data ++ recSep ++ "A:[DONE]".data

/-- The same scenario with a 6-character record header (`data: `), as the
input format section of the spec prescribes. -/
def sampleData : List Char :=
  deltaRecord "data: ".data "He".data ++ recSep ++
    deltaRecord "data: ".data "llo".data ++ recSep ++ "data: [DONE]".data

/-- The accumulated state of the end-to-end scenario. -/
def helloState : Json := Json.obj [("text".data, Json.str "Hello".data)]

theorem recordStep_of_blank (decode : List Char → Option Json) (st : CState) (i : Nat)
    (raw : List Char) (h : recordPayload raw = none) :
    recordStep decode st i raw = .ok st := by
  simp only [recordPayload] at h
  split at h
  · simp only [recordStep]
    split
    · rfl
    · simp_all
  · simp_all

theorem recordStep_of_payload (decode : List Char → Option Json) (st : CState) (i : Nat)
    (raw p : List Char) (h : recordPayload raw = some p) :
    recordStep decode st i raw =
      if p = doneToken then
        if st.closed then .error (.closeAfterClose i) else .ok ⟨st.queue, true⟩
      else
        match decode p with
        | none => .error (.parseError i)
        | some v =>
          if st.closed then .error (.enqueueAfterClose i) else .ok ⟨st.queue ++ [v], st.closed⟩ := by
  simp only [recordPayload] at h
  split at h
  · simp_all
  · simp only [Option.some.injEq] at h
    subst h
    simp only [recordStep]
    split
    · simp_all
    · rfl

theorem runRecords_closed_of_blank (decode : List Char → Option Json) :
    ∀ (recs : List (List Char)) (i : Nat) (q : List Json),
      recs.all blankRecord = true →
      runRecords decode i ⟨q, true⟩ recs = .ok ⟨q, true⟩ := by
  intro recs
  induction recs with
  | nil => intro i q _; rfl
  | cons raw rest ih =>
    intro i q h
    simp only [List.all_cons, Bool.and_eq_true] at h
    have hblank : recordPayload raw = none := by
      simp only [blankRecord, beq_iff_eq] at h
      simp [recordPayload, h.1]
    simp only [runRecords, recordStep_of_blank decode _ i raw hblank]
    exact ih (i + 1) q h.2

theorem runRecords_closed_ok (decode : List Char → Option Json) :
    ∀ (recs : List (List Char)) (i : Nat) (q q' : List Json) (c : Bool),
      runRecords decode i ⟨q, true⟩ recs = .ok ⟨q', c⟩ →
      q' = q ∧ c = true := by
  intro recs
  induction recs with
  | nil =>
    intro i q q' c h
    simp only [runRecords, Except.ok.injEq, CState.mk.injEq] at h
    exact ⟨h.1.symm, h.2.symm⟩
  | cons raw rest ih =>
    intro i q q' c h
    simp only [runRecords] at h
    cases hp : recordPayload raw with
    | none =>
      rw [recordStep_of_blank decode _ i raw hp] at h
      exact ih (i + 1) q q' c h
    | some p =>
      rw [recordStep_of_payload decode _ i raw p hp] at h
      by_cases hd : p = doneToken
      · simp [hd] at h
      · simp only [hd, if_false] at h
        cases hdec : decode p with
        | none => simp [hdec] at h
        | some v => simp [hdec] at h

theorem runRecords_closed_err (decode : List Char → Option Json) (i : Nat) (q : List Json)
    (raw : List Char) (rest : List (List Char)) (p : List Char)
    (h : recordPayload raw = some p) :
    ∃ e, runRecords decode i ⟨q, true⟩ (raw :: rest) = .error e := by
  simp only [runRecords, recordStep_of_payload decode _ i raw p h]
  by_cases hd : p = doneToken
  · exact ⟨.closeAfterClose i, by simp [hd]⟩
  · cases hdec : decode p with
    | none => exact ⟨.parseError i, by simp [hd, hdec]⟩
    | some v => exact ⟨.enqueueAfterClose i, by simp [hd, hdec]⟩

theorem runRecords_open_ok (decode : List Char → Option Json) :
    ∀ (recs : List (List Char)) (i : Nat) (q q' : List Json) (c : Bool),
      runRecords decode i ⟨q, false⟩ recs = .ok ⟨q', c⟩ →
      q' = q ++ (specScan decode recs).1 ∧ c = (specScan decode recs).2 := by
  intro recs
  induction recs with
  | nil =>
    intro i q q' c h
    simp only [runRecords, Except.ok.injEq, CState.mk.injEq] at h
    simp [specScan, h.1.symm, h.2.symm]
  | cons raw rest ih =>
    intro i q q' c h
    simp only [runRecords] at h
    cases hp : recordPayload raw with
    | none =>
      rw [recordStep_of_blank decode _ i raw hp] at h
      simpa [specScan, hp] using ih (i + 1) q q' c h
    | some p =>
      rw [recordStep_of_payload decode _ i raw p hp] at h
      by_cases hd : p = doneToken
      · simp only [hd, if_true, Bool.false_eq_true, if_false] at h
        have := runRecords_closed_ok decode rest (i + 1) q q' c h
        simp [specScan, hp, hd, this.1, this.2]
      · simp only [hd, if_false] at h
        cases hdec : decode p with
        | none => simp [hdec] at h
        | some v =>
          simp only [hdec, Bool.false_eq_true, if_false] at h
          have := ih (i + 1) (q ++ [v]) q' c h
          simp [specScan, hp, hd, hdec, this.1, this.2]

theorem runRecords_wellFormed (decode : List Char → Option Json) :
    ∀ (recs : List (List Char)) (i : Nat) (q : List Json),
      wellFormed decode recs = true →
      runRecords decode i ⟨q, false⟩ recs =
        .ok ⟨q ++ (specScan decode recs).1, (specScan decode recs).2⟩ := by
  intro recs
  induction recs with
  | nil => intro i q _; simp [runRecords, specScan]
  | cons raw rest ih =>
    intro i q h
    simp only [wellFormed] at h
    simp only [runRecords]
    cases hp : recordPayload raw with
    | none =>
      rw [recordStep_of_blank decode _ i raw hp]
      rw [hp] at h
      simpa [specScan, hp] using ih (i + 1) q h
    | some p =>
      rw [recordStep_of_payload decode _ i raw p hp]
      rw [hp] at h
      by_cases hd : p = doneToken
      · simp only [hd, if_true] at h ⊢
        simp [specScan, hp, hd, runRecords_closed_of_blank decode rest (i + 1) q h]
      · simp only [hd, if_false, Bool.and_eq_true, Option.isSome_iff_exists] at h
        obtain ⟨⟨v, hv⟩, hwf⟩ := h
        simp only [hv, Bool.false_eq_true, if_false]
        simpa [specScan, hp, hd, hv] using ih (i + 1) (q ++ [v]) hwf

theorem runRecords_append (decode : List Char → Option Json) :
    ∀ (as bs : List (List Char)) (i : Nat) (st : CState),
      runRecords decode i st (as ++ bs) =
        match runRecords decode i st as with
        | .ok st' => runRecords decode (i + as.length) st' bs
        | .error e => .error e := by
  intro as
  induction as with
  | nil => intro bs i st; simp [runRecords]
  | cons raw rest ih =>
    intro bs i st
    simp only [List.cons_append, runRecords]
    cases recordStep decode st i raw with
    | error e => rfl
    | ok st' =>
      simp only [List.length_cons]
      have h2 : i + (rest.length + 1) = i + 1 + rest.length := by omega
      rw [h2]
      exact ih bs (i + 1) st'

/-- C1: for every raw input text whose records are well formed (every
non-blank record before the first `[DONE]` decodes, and only blank records
follow it), the `start` callback splits the text on blank-line delimiters,
skips records that are blank after trimming, removes the first 6 characters
of each remaining record, treats the payload `[DONE]` as the terminal frame
(closing the stream instead of parsing it), and enqueues all other payloads
as parsed JSON events in the original record order — exactly the reference
scan `specScan` written from the spec's words. -/
theorem c1_parser_refines_spec (decode : List Char → Option Json) (content : List Char)
    (h : wellFormed decode (splitRecords [] content) = true) :
    runStart decode content =
      .ok ⟨(specScan decode (splitRecords [] content)).1,
           (specScan decode (splitRecords [] content)).2⟩ := by
  simpa [runStart] using
    runRecords_wellFormed decode (splitRecords [] content) 0 [] h

theorem c1_parser_refines_spec_witness :
    wellFormed miniJsonParse (splitRecords [] sampleData) = true ∧
    runStart miniJsonParse sampleData =
      .ok ⟨(specScan miniJsonParse (splitRecords [] sampleData)).1,
           (specScan miniJsonParse (splitRecords [] sampleData)).2⟩ :=
  ⟨by decide, c1_parser_refines_spec miniJsonParse sampleData (by decide)⟩

/-- C4: if the records of the input are some prefix that processes cleanly
with the stream still open, followed by a record whose payload is neither
blank nor `[DONE]` and fails to decode, then — whatever records follow —
parsing fails with a `ParseError` carrying that record's offset, and (by the
quantification over the tail) no record after the first malformed one is
parsed or emitted. -/
theorem c4_parse_failfast (decode : List Char → Option Json) (content : List Char)
    (pre post : List (List Char)) (r p : List Char) (q : List Json)
    (hsplit : splitRecords [] content = pre ++ r :: post)
    (hpre : runRecords decode 0 ⟨[], false⟩ pre = .ok ⟨q, false⟩)
    (hp : recordPayload r = some p) (hd : p ≠ doneToken) (hbad : decode p = none) :
    runStart decode content = .error (.parseError pre.length) := by
  rw [runStart, hsplit, runRecords_append, hpre]
  simp only [runRecords, recordStep_of_payload decode _ _ r p hp, hd, if_false, hbad,
    Nat.zero_add]

theorem c4_parse_failfast_witness :
    splitRecords [] sampleA =
      [] ++ deltaRecord "A:".data "He".data ::
        [deltaRecord "A:".data "llo".data, "A:[DONE]".data] ∧
    recordPayload (deltaRecord "A:".data "He".data) =
      some ((deltaRecord "A:".data "He".data).drop 6) ∧
    (deltaRecord "A:".data "He".data).drop 6 ≠ doneToken ∧
    miniJsonParse ((deltaRecord "A:".data "He".data).drop 6) = none ∧
    runStart miniJsonParse sampleA = .error (.parseError 0) :=
  ⟨by decide, by decide, by decide, by decide,
    c4_parse_failfast miniJsonParse sampleA []
      [deltaRecord "A:".data "llo".data, "A:[DONE]".data]
      (deltaRecord "A:".data "He".data) ((deltaRecord "A:".data "He".data).drop 6) []
      (by decide) (by decide) (by decide) (by decide) (by decide)⟩

/-- C5: whenever the reduction returns a final State, that State is the fold
of exactly the events decoded from the non-blank records strictly before the
first `[DONE]` record (`specScan` stops at the first sentinel), so no Event
occurring after the terminal sentinel is ever merged into the State; and
once the stream is closed, any further non-blank record — a second `[DONE]`
included — makes the `start` callback throw, so at most one terminal
sentinel can end the stream. -/
theorem c5_nothing_after_sentinel :
    (∀ (decode : List Char → Option Json) (merge : Option Json → Json → Json)
       (content : List Char) (st : Option Json),
       reduceContent decode merge content = .ok st →
       st = lastSnapshot merge (specScan decode (splitRecords [] content)).1 none) ∧
    (∀ (decode : List Char → Option Json) (i : Nat) (q : List Json)
       (raw : List Char) (rest : List (List Char)) (p : List Char),
       recordPayload raw = some p →
       ∃ e, runRecords decode i ⟨q, true⟩ (raw :: rest) = .error e) := by
  constructor
  · intro decode merge content st h
    simp only [reduceContent] at h
    cases hrun : runStart decode content with
    | error e => rw [hrun] at h; exact absurd h (by simp)
    | ok cs =>
      obtain ⟨q, c⟩ := cs
      rw [hrun] at h
      cases c with
      | false => exact absurd h (by simp)
      | true =>
        simp only [Except.ok.injEq] at h
        have := runRecords_open_ok decode (splitRecords [] content) 0 [] q true hrun
        rw [← h, this.1]
        simp
  · intro decode i q raw rest p hp
    exact runRecords_closed_err decode i q raw rest p hp

theorem c5_nothing_after_sentinel_witness :
    (reduceContent miniJsonParse deltaMerge sampleData = .ok (some helloState) ∧
     some helloState =
       lastSnapshot deltaMerge (specScan miniJsonParse (splitRecords [] sampleData)).1 none) ∧
    (recordPayload "A:[DONE]".data = some "E]".data ∧
     ∃ e, runRecords miniJsonParse 7 ⟨[], true⟩ ["A:[DONE]".data] = .error e) :=
  ⟨⟨by decide,
    c5_nothing_after_sentinel.1 miniJsonParse deltaMerge sampleData (some helloState)
      (by decide)⟩,
   ⟨by decide,
    c5_nothing_after_sentinel.2 miniJsonParse 7 [] "A:[DONE]".data [] "E]".data (by decide)⟩⟩

/-- C2 counterexample: on the exact input of the claim — the records
`A:{"delta":"He"}`, `A:{"delta":"llo"}`, `A:[DONE]` separated by blank lines
— the reduction does not terminate successfully with `{"text":"Hello"}`:
`line.slice(6)` removes 6 characters while these records carry only a
2-character header `A:`, so the very first payload is the string
`lta":"He"}`, which is not JSON, and the run aborts with a parse error on
record 0. -/
theorem c2_counterexample :
    reduceContent miniJsonParse deltaMerge sampleA =
      .error (.startFailure (.parseError 0)) ∧
    reduceContent miniJsonParse deltaMerge sampleA ≠ .ok (some helloState) := by
  constructor
  · decide
  · decide

/-- C2 amended: for the input whose three records carry a 6-character fixed
header (`data: ` instead of `A:`) and are otherwise exactly the claim's
records `{"delta":"He"}`, `{"delta":"llo"}`, `[DONE]`, parsing followed by
reduction with the delta-concatenating merge strategy terminates
successfully and produces the final State `{"text":"Hello"}`. -/
theorem c2_amended :
    reduceContent miniJsonParse deltaMerge sampleData = .ok (some helloState) := by
  decide

/-- C3: modelled from the spec (the reduction lives in the external `ai`
package): for every frame sequence in which the terminal sentinel never
occurs, the reduction does not return a final State — it fails with
`IncompleteStreamError`, a result channel distinct from success. -/
theorem c3_incomplete_stream {σ : Type} (merge : Option σ → Json → σ)
    (frames : List Frame) (acc : Option σ) (h : Frame.terminal ∉ frames) :
    reduceFrames merge frames acc = .error .incompleteStream := by
  induction frames generalizing acc with
  | nil => rfl
  | cons fr rest ih =>
    cases fr with
    | terminal => exact absurd (List.mem_cons_self _ _) h
    | event e =>
      simp only [reduceFrames]
      exact ih (some (merge acc e)) (fun hm => h (List.mem_cons_of_mem _ hm))

theorem c3_incomplete_stream_witness :
    Frame.terminal ∉ [Frame.event (Json.num 1), Frame.event Json.null] ∧
    reduceFrames deltaMerge [Frame.event (Json.num 1), Frame.event Json.null] none =
      .error .incompleteStream :=
  ⟨by decide,
   c3_incomplete_stream deltaMerge [Frame.event (Json.num 1), Frame.event Json.null] none
     (by decide)⟩

/-- C10: when the stream closes without a single event having been enqueued
(an empty but properly terminated stream), the reader loop never assigns
`last`, so the reduction yields no State value at all (`none`, the model of
`undefined`, rather than an empty initial State), and the persistence step
fails: `JSON.stringify(undefined)` is `undefined` and `fs.writeFileSync`
throws a `TypeError` on it. -/
theorem c10_empty_terminated_stream (decode : List Char → Option Json)
    (merge : Option Json → Json → Json) (content : List Char)
    (h : runStart decode content = .ok ⟨[], true⟩) :
    reduceContent decode merge content = .ok none ∧
    runProgram decode merge content = .error .writeTypeError := by
  have h1 : reduceContent decode merge content = .ok none := by
    simp [reduceContent, h, lastSnapshot]
  exact ⟨h1, by simp [runProgram, h1]⟩

theorem c10_empty_terminated_stream_witness :
    runStart miniJsonParse "data: [DONE]".data = .ok ⟨[], true⟩ ∧
    reduceContent miniJsonParse deltaMerge "data: [DONE]".data = .ok none ∧
    runProgram miniJsonParse deltaMerge "data: [DONE]".data = .error .writeTypeError :=
  ⟨by decide,
   (c10_empty_terminated_stream miniJsonParse deltaMerge "data: [DONE]".data (by decide)).1,
   (c10_empty_terminated_stream miniJsonParse deltaMerge "data: [DONE]".data (by decide)).2⟩

theorem reportFold_inner (rs : List DiffRecord) :
    ∀ acc : List (List Char),
      rs.foldl
        (fun acc2 r => if r.type = DiffType.equal then acc2 else acc2 ++ [formatLine r]) acc =
      acc ++ (rs.filter (fun dr => decide (dr.type ≠ DiffType.equal))).map formatLine := by
  induction rs with
  | nil => intro acc; simp
  | cons r rest ih =>
    intro acc
    by_cases h : r.type = DiffType.equal
    · simp [List.foldl_cons, h, ih]
    · simp [List.foldl_cons, h, ih, List.append_assoc]

theorem reportLines_eq (rss : List (List DiffRecord)) :
    reportLines rss =
      (rss.flatten.filter (fun dr => decide (dr.type ≠ DiffType.equal))).map formatLine := by
  have gen : ∀ acc,
      rss.foldl
        (fun acc rs =>
          rs.foldl
            (fun acc2 r => if r.type = DiffType.equal then acc2 else acc2 ++ [formatLine r]) acc)
        acc =
      acc ++ (rss.flatten.filter (fun dr => decide (dr.type ≠ DiffType.equal))).map formatLine := by
    induction rss with
    | nil => intro acc; simp
    | cons rs rest ih =>
      intro acc
      simp [List.foldl_cons, reportFold_inner rs acc, ih, List.filter_append,
        List.append_assoc]
  simpa [reportLines] using gen []

/-- C8: for every diff result, the report loop emits exactly one line, of the
form `<lineNumber>:<type> <text>` (built by `formatLine`), per DiffRecord
whose type is not `equal`, in record order, and emits nothing for records of
type `equal`: the printed lines are exactly the image under `formatLine` of
the non-`equal` records. -/
theorem c8_report_surface (m : AlignMethod) (l r : Json) :
    reportLines (Differ.diff m l r) =
      ((Differ.diff m l r).flatten.filter (fun dr => decide (dr.type ≠ DiffType.equal))).map
        formatLine :=
  reportLines_eq (Differ.diff m l r)

theorem posAlign_self : ∀ xs : List Json,
    posAlign xs xs = xs.map (fun x => ((some x : Option Json), (some x : Option Json))) := by
  intro xs
  induction xs with
  | nil => simp [posAlign]
  | cons x rest ih => simp [posAlign, ih]

theorem lcsAlignF_self : ∀ (f : Nat) (xs : List Json), xs.length ≤ f →
    lcsAlignF f xs xs = xs.map (fun x => ((some x : Option Json), (some x : Option Json))) := by
  intro f
  induction f with
  | zero =>
    intro xs h
    have : xs = [] := List.length_eq_zero.mp (Nat.le_zero.mp h)
    subst this
    rfl
  | succ f ih =>
    intro xs h
    cases xs with
    | nil => rfl
    | cons x rest =>
      have hr := ih rest (by simpa using Nat.le_of_succ_le_succ h)
      simp [lcsAlignF, hr]

theorem lcsAlign_self (xs : List Json) :
    lcsAlign xs xs = xs.map (fun x => ((some x : Option Json), (some x : Option Json))) :=
  lcsAlignF_self (xs.length + xs.length) xs (by omega)

theorem align_self (m : AlignMethod) (xs : List Json) :
    align m xs xs = xs.map (fun x => ((some x : Option Json), (some x : Option Json))) := by
  cases m with
  | normal => exact posAlign_self xs
  | lcs => exact lcsAlign_self xs

theorem lookupF_of_mem_keysOf (fs : List (List Char × Json)) (k : List Char)
    (h : k ∈ keysOf fs) : ∃ a, lookupF fs k = some a := by
  rw [keysOf, List.mem_dedup, List.mem_map] at h
  obtain ⟨kv, hkv, hk⟩ := h
  have : (fs.find? (fun kv => decide (kv.1 = k))).isSome := by
    rw [List.find?_isSome]
    exact ⟨kv, hkv, by simp [hk]⟩
  obtain ⟨kv', hkv'⟩ := Option.isSome_iff_exists.mp this
  exact ⟨kv'.2, by simp [lookupF, hkv']⟩

theorem objKeys_self (fs : List (List Char × Json)) : objKeys fs fs = keysOf fs := by
  rw [objKeys]
  have : (keysOf fs).filter (fun k => decide (k ∉ keysOf fs)) = [] := by
    rw [List.filter_eq_nil_iff]
    intro k hk
    simp [hk]
  rw [this, List.append_nil]

theorem onlyEqualF : ∀ (f : Nat) (m : AlignMethod) (x : Json),
    (diffFuel m f x x).all (fun p => decide (p.1 = DiffType.equal)) = true := by
  intro f
  induction f with
  | zero => intro m x; rfl
  | succ f ih =>
    intro m x
    cases x with
    | null => simp [diffFuel]
    | bool b => simp [diffFuel]
    | num n => simp [diffFuel]
    | str s => simp [diffFuel]
    | arr xs =>
      simp only [diffFuel, align_self, List.map_map]
      rw [List.all_eq_true]
      intro p hp
      rw [List.mem_flatten] at hp
      obtain ⟨rs, hrs, hp2⟩ := hp
      rw [List.mem_map] at hrs
      obtain ⟨u, hu, rfl⟩ := hrs
      have := List.all_eq_true.mp (ih m u)
      exact this p hp2
    | obj fs =>
      simp only [diffFuel, objKeys_self]
      rw [List.all_eq_true]
      intro p hp
      rw [List.mem_flatten] at hp
      obtain ⟨rs, hrs, hp2⟩ := hp
      rw [List.mem_map] at hrs
      obtain ⟨k, hk, rfl⟩ := hrs
      obtain ⟨a, ha⟩ := lookupF_of_mem_keysOf fs k hk
      rw [ha] at hp2
      have := List.all_eq_true.mp (ih m a)
      exact this p hp2

theorem assignLines_all : ∀ (rs : List DRec) (n : Nat) (p : DiffType → Bool),
    (assignLines n rs).all (fun dr => p dr.type) = rs.all (fun q => p q.1) := by
  intro rs
  induction rs with
  | nil => intro n p; rfl
  | cons q rest ih =>
    intro n p
    obtain ⟨t, s⟩ := q
    simp [assignLines, ih]

/-- C6: modelled from the spec (the differ is `json-diff-kit`'s, external):
for every tree `x` and either array strategy, `diff(x, x)` yields only
records of type `equal` — no `add`, `remove`, or `modify` record appears
anywhere in the result. -/
theorem c6_diff_self_equal (m : AlignMethod) (x : Json) :
    (Differ.diff m x x).flatten.all (fun dr => decide (dr.type = DiffType.equal)) = true := by
  simp only [Differ.diff, List.flatten, List.append_nil]
  exact (assignLines_all (diffCore m x x) 1 (fun t => decide (t = DiffType.equal))).trans
    (onlyEqualF (jsize x + jsize x) m x)

theorem countT_flatten (t : DiffType) (ls : List (List DRec)) :
    countT t ls.flatten = (ls.map (countT t)).sum := by
  simp only [countT, List.countP_flatten]
  rfl

theorem countT_single_eq (t : DiffType) (s s' : List Char) :
    countT t [(DiffType.equal, s)] = countT (swapT t) [(DiffType.equal, s')] := by
  cases t <;> rfl

theorem countT_single_mod (t : DiffType) (s s' : List Char) :
    countT t [(DiffType.modify, s)] = countT (swapT t) [(DiffType.modify, s')] := by
  cases t <;> rfl

theorem countT_rm_ad (t : DiffType) (s s' : List Char) :
    countT t [(DiffType.remove, s)] = countT (swapT t) [(DiffType.add, s')] := by
  cases t <;> rfl

theorem countT_ad_rm (t : DiffType) (s s' : List Char) :
    countT t [(DiffType.add, s)] = countT (swapT t) [(DiffType.remove, s')] := by
  cases t <;> rfl

theorem countT_pair_mismatch (t : DiffType) (s1 s2 s3 s4 : List Char) :
    countT t [(DiffType.remove, s1), (DiffType.add, s2)] =
      countT (swapT t) [(DiffType.remove, s3), (DiffType.add, s4)] := by
  cases t <;> rfl

theorem posAlign_nil_left : ∀ ys : List Json,
    posAlign [] ys = ys.map (fun y => ((none : Option Json), some y)) := by
  intro ys
  induction ys with
  | nil => simp [posAlign]
  | cons y rest ih => simp [posAlign, ih]

theorem posAlign_nil_right : ∀ xs : List Json,
    posAlign xs [] = xs.map (fun x => (some x, (none : Option Json))) := by
  intro xs
  induction xs with
  | nil => simp [posAlign]
  | cons x rest ih => simp [posAlign, ih]

theorem posAlign_swap : ∀ xs ys : List Json,
    posAlign ys xs = (posAlign xs ys).map (fun s => (s.2, s.1)) := by
  intro xs
  induction xs with
  | nil =>
    intro ys
    simp [posAlign_nil_left, posAlign_nil_right, List.map_map, Function.comp]
  | cons x rest ih =>
    intro ys
    cases ys with
    | nil => simp [posAlign_nil_left, posAlign_nil_right, List.map_map, Function.comp]
    | cons y rest' => simp [posAlign, ih rest']

theorem keysOf_nodup (fs : List (List Char × Json)) : (keysOf fs).Nodup :=
  List.nodup_dedup _

theorem objKeys_nodup (xs ys : List (List Char × Json)) : (objKeys xs ys).Nodup := by
  refine List.Nodup.append (keysOf_nodup xs) (List.Nodup.filter _ (keysOf_nodup ys)) ?_
  intro k hk hk'
  rw [List.mem_filter, decide_eq_true_eq] at hk'
  exact hk'.2 hk

theorem objKeys_mem (xs ys : List (List Char × Json)) (k : List Char) :
    k ∈ objKeys xs ys ↔ k ∈ keysOf xs ∨ k ∈ keysOf ys := by
  simp only [objKeys, List.mem_append, List.mem_filter, decide_eq_true_eq]
  by_cases h : k ∈ keysOf xs <;> simp [h]

theorem objKeys_perm (xs ys : List (List Char × Json)) :
    (objKeys xs ys).Perm (objKeys ys xs) := by
  rw [List.perm_ext_iff_of_nodup (objKeys_nodup xs ys) (objKeys_nodup ys xs)]
  intro k
  rw [objKeys_mem, objKeys_mem]
  exact or_comm

theorem diffFuel_swap (t : DiffType) : ∀ (f : Nat) (l r : Json),
    countT t (diffFuel .normal f l r) = countT (swapT t) (diffFuel .normal f r l) := by
  intro f
  induction f with
  | zero => intro l r; rfl
  | succ f ih =>
    have hslot : ∀ o1 o2 : Option Json,
        countT t (slotRecords (diffFuel .normal f) (o1, o2)) =
          countT (swapT t) (slotRecords (diffFuel .normal f) (o2, o1)) := by
      intro o1 o2
      cases o1 with
      | none =>
        cases o2 with
        | none => rfl
        | some b => exact countT_ad_rm t _ _
      | some a =>
        cases o2 with
        | none => exact countT_rm_ad t _ _
        | some b => exact ih a b
    intro l r
    cases l <;> cases r <;> simp only [diffFuel]
    case null.null => exact countT_single_eq t _ _
    case bool.bool a b =>
      rcases eq_or_ne a b with h | h
      · subst h
        simp only [if_pos rfl]
        exact countT_single_eq t _ _
      · rw [if_neg h, if_neg (fun hh => h hh.symm)]
        exact countT_single_mod t _ _
    case num.num a b =>
      rcases eq_or_ne a b with h | h
      · subst h
        simp only [if_pos rfl]
        exact countT_single_eq t _ _
      · rw [if_neg h, if_neg (fun hh => h hh.symm)]
        exact countT_single_mod t _ _
    case str.str a b =>
      rcases eq_or_ne a b with h | h
      · subst h
        simp only [if_pos rfl]
        exact countT_single_eq t _ _
      · rw [if_neg h, if_neg (fun hh => h hh.symm)]
        exact countT_single_mod t _ _
    case arr.arr xs ys =>
      simp only [align, posAlign_swap xs ys, List.map_map]
      rw [countT_flatten, countT_flatten, List.map_map, List.map_map]
      have : ∀ slot ∈ posAlign xs ys,
          (countT t ∘ slotRecords (diffFuel .normal f)) slot =
            (countT (swapT t) ∘ slotRecords (diffFuel .normal f) ∘ fun s => (s.2, s.1)) slot := by
        intro slot _
        obtain ⟨o1, o2⟩ := slot
        exact hslot o1 o2
      rw [List.map_congr_left this]
    case obj.obj xs ys =>
      rw [countT_flatten, countT_flatten, List.map_map, List.map_map]
      have hpt : ∀ k ∈ objKeys xs ys,
          (countT t ∘ fun k => slotRecords (diffFuel .normal f) (lookupF xs k, lookupF ys k)) k =
            ((fun k =>
                countT (swapT t)
                  (slotRecords (diffFuel .normal f) (lookupF ys k, lookupF xs k)))) k := by
        intro k _
        exact hslot (lookupF xs k) (lookupF ys k)
      rw [List.map_congr_left hpt]
      exact ((objKeys_perm xs ys).map _).sum_eq
    all_goals exact countT_pair_mismatch t _ _ _ _

theorem assignLines_countP : ∀ (rs : List DRec) (n : Nat) (t : DiffType),
    (assignLines n rs).countP (fun dr => decide (dr.type = t)) =
      rs.countP (fun q => decide (q.1 = t)) := by
  intro rs
  induction rs with
  | nil => intro n t; rfl
  | cons q rest ih =>
    intro n t
    obtain ⟨ty, s⟩ := q
    simp [assignLines, List.countP_cons, ih]

theorem countRecs_diff (t : DiffType) (m : AlignMethod) (l r : Json) :
    countRecs t (Differ.diff m l r) = countT t (diffCore m l r) := by
  simp only [countRecs, Differ.diff, List.flatten, List.append_nil, countT]
  exact assignLines_countP (diffCore m l r) 1 t

/-- C7: modelled from the spec (the differ is `json-diff-kit`'s, external),
for the differ as configured in the source (positional array strategy):
swapping the two inputs turns every `add` into a `remove` and every `remove`
into an `add` while leaving the `equal` and `modify` counts unchanged — for
every record type `t`, the number of `t` records in `diff(left, right)`
equals the number of `swapT t` records in `diff(right, left)`. -/
theorem c7_swap_roles (l r : Json) (t : DiffType) :
    countRecs t (Differ.diff .normal l r) = countRecs (swapT t) (Differ.diff .normal r l) := by
  rw [countRecs_diff, countRecs_diff, diffCore, diffCore]
  rw [diffFuel_swap t (jsize l + jsize r) l r, Nat.add_comm (jsize r) (jsize l)]

theorem insertAt_length : ∀ (i : Nat) (e : Json) (s : List Json),
    (insertAt i e s).length = s.length + 1 := by
  intro i
  induction i with
  | zero => intro e s; rfl
  | succ i ih =>
    intro e s
    cases s with
    | nil => rfl
    | cons x xs => simp [insertAt, ih e xs]

theorem countT_append (t : DiffType) (as bs : List DRec) :
    countT t (as ++ bs) = countT t as + countT t bs := by
  simp [countT, List.countP_append]

theorem countT_singleton (t ty : DiffType) (s : List Char) :
    countT t [(ty, s)] = if ty = t then 1 else 0 := by
  simp [countT, List.countP_cons, List.countP_nil]

theorem all_equal_counts : ∀ rs : List DRec,
    rs.all (fun p => decide (p.1 = DiffType.equal)) = true →
    ∀ t, t ≠ DiffType.equal → countT t rs = 0 := by
  intro rs
  induction rs with
  | nil => intro _ t _; rfl
  | cons q rest ih =>
    intro h t ht
    rw [List.all_cons, Bool.and_eq_true, decide_eq_true_eq] at h
    have hc : countT t (q :: rest) = countT t rest + if q.1 = t then 1 else 0 := by
      simp [countT, List.countP_cons]
    rw [hc, ih h.2 t ht, if_neg (fun (hq : q.1 = t) => ht (hq ▸ h.1))]

theorem matchCount_diag (t : List Json) :
    matchCount (t.map (fun u => ((some u : Option Json), (some u : Option Json)))) =
      t.length := by
  simp [matchCount, List.countP_map, Function.comp, List.countP_true]

theorem matchCount_cons_matched (a b : Json) (rest : List Slot) :
    matchCount ((some a, some b) :: rest) = matchCount rest + 1 := by
  simp [matchCount, List.countP_cons]

theorem matchCount_cons_left (a : Json) (rest : List Slot) :
    matchCount ((some a, none) :: rest) = matchCount rest := by
  simp [matchCount, List.countP_cons]

theorem matchCount_cons_right (b : Json) (rest : List Slot) :
    matchCount ((none, some b) :: rest) = matchCount rest := by
  simp [matchCount, List.countP_cons]

theorem matchCount_le_left : ∀ (f : Nat) (xs ys : List Json),
    matchCount (lcsAlignF f xs ys) ≤ xs.length := by
  intro f
  induction f with
  | zero =>
    intro xs ys
    have h0 : matchCount (lcsAlignF 0 xs ys) = 0 := by
      simp [lcsAlignF, matchCount, List.countP_append, List.countP_map, Function.comp]
    rw [h0]
    exact Nat.zero_le _
  | succ f ih =>
    intro xs ys
    cases xs with
    | nil =>
      have h0 : matchCount (lcsAlignF (f + 1) [] ys) = 0 := by
        simp [lcsAlignF, matchCount, List.countP_map, Function.comp]
      rw [h0]
      exact Nat.zero_le _
    | cons x xs' =>
      cases ys with
      | nil =>
        have h0 : matchCount (lcsAlignF (f + 1) (x :: xs') []) = 0 := by
          simp [lcsAlignF, matchCount, List.countP_map, Function.comp]
        rw [h0]
        exact Nat.zero_le _
      | cons y ys' =>
        simp only [lcsAlignF]
        by_cases hxy : x = y
        · rw [if_pos hxy, matchCount_cons_matched]
          have := ih xs' ys'
          simp only [List.length_cons]
          omega
        · rw [if_neg hxy]
          by_cases hmc :
              matchCount (lcsAlignF f xs' (y :: ys')) ≤ matchCount (lcsAlignF f (x :: xs') ys')
          · rw [if_pos hmc, matchCount_cons_right]
            have := ih (x :: xs') ys'
            simp only [List.length_cons] at this ⊢
            omega
          · rw [if_neg hmc, matchCount_cons_left]
            have := ih xs' (y :: ys')
            simp only [List.length_cons]
            omega

theorem lcs_insert_general : ∀ (f : Nat) (s : List Json) (i : Nat) (e : Json),
    i ≤ s.length → s.length + (insertAt i e s).length ≤ f →
    ((lcsAlignF f s (insertAt i e s)).countP (fun sl => sl.1.isNone && sl.2.isSome) = 1 ∧
     (lcsAlignF f s (insertAt i e s)).countP (fun sl => sl.1.isSome && sl.2.isNone) = 0 ∧
     ∀ a b : Json,
       ((some a : Option Json), (some b : Option Json)) ∈ lcsAlignF f s (insertAt i e s) →
       a = b) := by
  intro f
  induction f with
  | zero =>
    intro s i e hi hf
    rw [insertAt_length] at hf
    omega
  | succ f ih =>
    intro s i e hi hf
    cases s with
    | nil =>
      have hi0 : i = 0 := Nat.le_zero.mp hi
      subst hi0
      refine ⟨by simp [insertAt, lcsAlignF], by simp [insertAt, lcsAlignF], ?_⟩
      intro a b hab
      simp [insertAt, lcsAlignF] at hab
    | cons x xs =>
      cases i with
      | zero =>
        by_cases hxe : x = e
        · subst hxe
          have htail := ih xs 0 x (Nat.zero_le _)
            (by rw [insertAt_length] at hf ⊢; simp at hf ⊢; omega)
          simp only [insertAt] at htail ⊢
          simp only [lcsAlignF, if_pos rfl, List.countP_cons]
          refine ⟨?_, ?_, ?_⟩
          · simp [htail.1]
          · simp [htail.2.1]
          · intro a b hab
            rcases List.mem_cons.mp hab with h | h
            · simp only [Prod.mk.injEq, Option.some.injEq] at h
              rw [h.1, h.2]
            · exact htail.2.2 a b h
        · have hlen : (x :: xs).length ≤ f := by
            rw [insertAt_length] at hf
            simp at hf ⊢
            omega
          have hself := lcsAlignF_self f (x :: xs) hlen
          simp only [insertAt, lcsAlignF, if_neg hxe]
          have hmca : matchCount (lcsAlignF f (x :: xs) (x :: xs)) = (x :: xs).length := by
            rw [hself, matchCount_diag]
          have hmcb : matchCount (lcsAlignF f xs (e :: x :: xs)) ≤ xs.length :=
            matchCount_le_left f xs (e :: x :: xs)
          have hcond :
              matchCount (lcsAlignF f xs (e :: x :: xs)) ≤
                matchCount (lcsAlignF f (x :: xs) (x :: xs)) := by
            rw [hmca]
            simp
            omega
          rw [if_pos hcond, hself]
          refine ⟨?_, ?_, ?_⟩
          · simp [List.countP_cons, List.countP_map, Function.comp]
          · simp [List.countP_cons, List.countP_map, Function.comp]
          · intro a b hab
            rcases List.mem_cons.mp hab with h | h
            · simp at h
            · rw [List.mem_map] at h
              obtain ⟨u, _, hu⟩ := h
              simp only [Prod.mk.injEq, Option.some.injEq] at hu
              rw [← hu.1, ← hu.2]
      | succ i' =>
        have htail := ih xs i' e (by simpa using Nat.le_of_succ_le_succ hi)
          (by rw [insertAt_length] at hf ⊢; simp at hf ⊢; omega)
        simp only [insertAt, lcsAlignF, if_pos rfl, List.countP_cons]
        refine ⟨?_, ?_, ?_⟩
        · simp [htail.1]
        · simp [htail.2.1]
        · intro a b hab
          rcases List.mem_cons.mp hab with h | h
          · simp only [Prod.mk.injEq, Option.some.injEq] at h
            rw [h.1, h.2]
          · exact htail.2.2 a b h

theorem countT_nil (t : DiffType) : countT t [] = 0 := rfl

theorem slots_counts (recur : Json → Json → List DRec)
    (hrec : ∀ (a : Json) (t : DiffType), t ≠ DiffType.equal → countT t (recur a a) = 0) :
    ∀ slots : List Slot, (∀ a b : Json, (some a, some b) ∈ slots → a = b) →
    (countT .add ((slots.map (slotRecords recur)).flatten) =
       slots.countP (fun sl => sl.1.isNone && sl.2.isSome) ∧
     countT .remove ((slots.map (slotRecords recur)).flatten) =
       slots.countP (fun sl => sl.1.isSome && sl.2.isNone) ∧
     countT .modify ((slots.map (slotRecords recur)).flatten) = 0) := by
  intro slots
  induction slots with
  | nil => intro _; refine ⟨rfl, rfl, rfl⟩
  | cons sl rest ih =>
    intro hmem
    have htail := ih (fun a b h => hmem a b (List.mem_cons_of_mem _ h))
    obtain ⟨o1, o2⟩ := sl
    simp only [List.map_cons, List.flatten_cons, countT_append, List.countP_cons]
    cases o1 with
    | none =>
      cases o2 with
      | none =>
        refine ⟨?_, ?_, ?_⟩ <;>
          simp [slotRecords, countT_nil, htail.1, htail.2.1, htail.2.2]
      | some b =>
        refine ⟨?_, ?_, ?_⟩ <;>
          (simp [slotRecords, countT_singleton, countT_nil, countT_append,
            htail.1, htail.2.1, htail.2.2]
           try omega)
    | some a =>
      cases o2 with
      | none =>
        refine ⟨?_, ?_, ?_⟩ <;>
          (simp [slotRecords, countT_singleton, countT_nil, countT_append,
            htail.1, htail.2.1, htail.2.2]
           try omega)
      | some b =>
        have hab : a = b := hmem a b (List.mem_cons_self _ _)
        subst hab
        have h1 := hrec a DiffType.add (by simp)
        have h2 := hrec a DiffType.remove (by simp)
        have h3 := hrec a DiffType.modify (by simp)
        refine ⟨?_, ?_, ?_⟩ <;>
          simp [slotRecords, h1, h2, h3, htail.1, htail.2.1, htail.2.2]

theorem scalar_self_countEqual (f : Nat) (a : Json) (hf : 1 ≤ f) (ha : isScalar a = true) :
    countT .equal (diffFuel .normal f a a) = 1 := by
  cases f with
  | zero => omega
  | succ f =>
    cases a with
    | null => rfl
    | bool b => simp [diffFuel, countT_singleton]
    | num n => simp [diffFuel, countT_singleton]
    | str s => simp [diffFuel, countT_singleton]
    | arr xs => simp [isScalar] at ha
    | obj fs => simp [isScalar] at ha

theorem scalar_ne_countEqual (f : Nat) (a b : Json) (ha : isScalar a = true)
    (hb : isScalar b = true) (hne : a ≠ b) :
    countT .equal (diffFuel .normal f a b) = 0 := by
  cases f with
  | zero => rfl
  | succ f =>
    cases a <;> cases b
    case null.null => exact absurd rfl hne
    case bool.bool u w =>
      simp only [diffFuel]
      rw [if_neg (fun h => hne (by rw [h]))]
      rfl
    case num.num u w =>
      simp only [diffFuel]
      rw [if_neg (fun h => hne (by rw [h]))]
      rfl
    case str.str u w =>
      simp only [diffFuel]
      rw [if_neg (fun h => hne (by rw [h]))]
      rfl
    all_goals first
      | (simp only [diffFuel]; rfl)
      | (exfalso; simp [isScalar] at ha)

theorem posShift_countEqual : ∀ (s : List Json) (v : Json) (f : Nat),
    (∀ x ∈ v :: s, isScalar x = true) → List.Chain' Ne (v :: s) →
    countT .equal (((posAlign s (v :: s)).map (slotRecords (diffFuel .normal f))).flatten) =
      0 := by
  intro s
  induction s with
  | nil =>
    intro v f _ _
    simp [posAlign, slotRecords, countT_singleton, countT_nil, countT_append]
  | cons x xs ih =>
    intro v f hsc hch
    rw [List.chain'_cons] at hch
    have hxv : x ≠ v := fun h => hch.1 (h ▸ rfl)
    simp only [posAlign, List.map_cons, List.flatten_cons, countT_append]
    rw [show slotRecords (diffFuel .normal f) (some x, some v) = diffFuel .normal f x v from rfl]
    rw [scalar_ne_countEqual f x v (hsc x (by simp)) (hsc v (by simp)) hxv]
    rw [ih x f (fun y hy => hsc y (by simp at hy ⊢; tauto)) hch.2]

theorem posInsert_countEqual : ∀ (s : List Json) (i : Nat) (e : Json) (f : Nat),
    1 ≤ f → (∀ x ∈ e :: s, isScalar x = true) → i < s.length →
    List.Chain' Ne (e :: s.drop i) →
    countT .equal
      (((posAlign s (insertAt i e s)).map (slotRecords (diffFuel .normal f))).flatten) = i := by
  intro s
  induction s with
  | nil => intro i e f _ _ hi _; exact absurd hi (by simp)
  | cons x xs ih =>
    intro i e f hf hsc hi hch
    cases i with
    | zero =>
      exact posShift_countEqual (x :: xs) e f hsc (by simpa using hch)
    | succ i' =>
      simp only [insertAt, posAlign, List.map_cons, List.flatten_cons, countT_append]
      rw [show slotRecords (diffFuel .normal f) (some x, some x) = diffFuel .normal f x x from
        rfl]
      rw [scalar_self_countEqual f x hf (hsc x (by simp))]
      rw [ih i' e f hf (fun y hy => hsc y (by simp at hy ⊢; tauto))
        (by simpa using hi) (by simpa using hch)]
      omega

theorem diffCore_arr (m : AlignMethod) (xs ys : List Json) :
    diffCore m (.arr xs) (.arr ys) =
      ((align m xs ys).map
        (slotRecords (diffFuel m (1 + jsizeList xs + jsizeList ys)))).flatten := by
  have h : jsize (Json.arr xs) + jsize (Json.arr ys) = (1 + jsizeList xs + jsizeList ys) + 1 := by
    simp [jsize]
    omega
  rw [diffCore, h]
  rfl

/-- C9 counterexample: the claim's positional half fails for sequences with
repeated elements.  Take s = [1, 1] and insert e = 1 at the non-trailing
position 0: the positional strategy pairs indices 0 and 1 of both sides,
both pairs compare equal, so the comparison yields two `equal` records and
one trailing `add` — not `modify`/`remove`/`add` records for every element
from the insertion point onward (which would force zero `equal` records
here). -/
theorem c9_counterexample :
    insertAt 0 (Json.num 1) [Json.num 1, Json.num 1] =
      [Json.num 1, Json.num 1, Json.num 1] ∧
    countRecs .equal
      (Differ.diff .normal (.arr [Json.num 1, Json.num 1])
        (.arr [Json.num 1, Json.num 1, Json.num 1])) = 2 ∧
    countRecs .modify
      (Differ.diff .normal (.arr [Json.num 1, Json.num 1])
        (.arr [Json.num 1, Json.num 1, Json.num 1])) = 0 := by
  refine ⟨by decide, by decide, by decide⟩

/-- C9 amended: for every sequence `s`, element `e` and non-trailing
insertion position `i < s.length`, with `s' = insertAt i e s`: under the
alignment (LCS) strategy, diffing `s` against `s'` yields exactly one `add`
record, zero `remove` records and zero `modify` records (the untouched
elements produce only `equal` records); under the positional strategy,
provided the elements are scalars and no two consecutively compared values
from the insertion point onward coincide (`e ≠ s i` and adjacent elements of
`s` from position `i` on are pairwise distinct, i.e. `Chain' Ne (e :: s.drop
i)`), the comparison yields `modify`/`remove`/`add` records for every
element from the insertion point onward: exactly `i` `equal` records remain,
one per untouched element before the insertion point.  (The distinctness
hypotheses are forced by the counterexample: with repeated elements the
positional strategy produces `equal` records past the insertion point.) -/
theorem c9_amended (s : List Json) (e : Json) (i : Nat) (hi : i < s.length) :
    (countRecs .add (Differ.diff .lcs (.arr s) (.arr (insertAt i e s))) = 1 ∧
     countRecs .remove (Differ.diff .lcs (.arr s) (.arr (insertAt i e s))) = 0 ∧
     countRecs .modify (Differ.diff .lcs (.arr s) (.arr (insertAt i e s))) = 0) ∧
    ((∀ x ∈ e :: s, isScalar x = true) → List.Chain' Ne (e :: s.drop i) →
     countRecs .equal (Differ.diff .normal (.arr s) (.arr (insertAt i e s))) = i) := by
  constructor
  · rw [countRecs_diff, countRecs_diff, countRecs_diff, diffCore_arr]
    have halign : align .lcs s (insertAt i e s) =
        lcsAlignF (s.length + (insertAt i e s).length) s (insertAt i e s) := rfl
    have hins := lcs_insert_general (s.length + (insertAt i e s).length) s i e
      (Nat.le_of_lt hi) (Nat.le_refl _)
    have hcounts := slots_counts (diffFuel .lcs (1 + jsizeList s + jsizeList (insertAt i e s)))
      (fun a t ht =>
        all_equal_counts _ (onlyEqualF (1 + jsizeList s + jsizeList (insertAt i e s)) .lcs a)
          t ht)
      (lcsAlignF (s.length + (insertAt i e s).length) s (insertAt i e s))
      hins.2.2
    rw [halign]
    exact ⟨hcounts.1.trans hins.1, hcounts.2.1.trans hins.2.1, hcounts.2.2⟩
  · intro hsc hch
    rw [countRecs_diff, diffCore_arr]
    have halign : align .normal s (insertAt i e s) = posAlign s (insertAt i e s) := rfl
    rw [halign]
    exact posInsert_countEqual s i e (1 + jsizeList s + jsizeList (insertAt i e s))
      (by omega) hsc hi hch

theorem c9_amended_witness :
    ((0 : Nat) < ([Json.num 0, Json.num 1] : List Json).length) ∧
    (∀ x ∈ [Json.num 5, Json.num 0, Json.num 1], isScalar x = true) ∧
    List.Chain' Ne [Json.num 5, Json.num 0, Json.num 1] ∧
    countRecs .add
      (Differ.diff .lcs (.arr [Json.num 0, Json.num 1])
        (.arr (insertAt 0 (Json.num 5) [Json.num 0, Json.num 1]))) = 1 ∧
    countRecs .equal
      (Differ.diff .normal (.arr [Json.num 0, Json.num 1])
        (.arr (insertAt 0 (Json.num 5) [Json.num 0, Json.num 1]))) = 0 := by
  have hch : List.Chain' Ne [Json.num 5, Json.num 0, Json.num 1] := by
    rw [List.chain'_cons, List.chain'_cons]
    exact ⟨by decide, by decide, List.chain'_singleton _⟩
  refine ⟨by decide, by decide, hch, ?_, ?_⟩
  · exact (c9_amended [Json.num 0, Json.num 1] (Json.num 5) 0 (by decide)).1.1
  · exact (c9_amended [Json.num 0, Json.num 1] (Json.num 5) 0 (by decide)).2 (by decide) hch
